import Mathlib

/-!
Verification of the file-backed JSON cache store (`src/json-file-store.js`).

The source is a small Node.js module with three public operations, `write`,
`read` and `delete`, a metadata index (`meta.json`) and an eviction routine
(`reduceCacheSize`).  This file gives a shallow embedding:

* Structured values are the inductive `JVal` (JSON values plus a `buf`
  constructor for binary buffers; bytes are `Fin 256`).  `JList`/`JFields`
  are the spines of arrays and objects, mutually inductive with `JVal`.
* `encodeVal` embeds the `replacerFunction` of `exports.write` applied
  during `JSON.stringify`: the replacer is invoked top-down, sees buffers
  in their `toJSON` form `{type:"Buffer", data:[...]}` and, for any
  buffer-shaped node whose `data.length >= 1024`, replaces it by an
  `ExternalBuffer` placeholder and appends the raw bytes to the segment
  list.  The primary document is kept as a JSON tree (the module writes
  `JSON.stringify` of it and reads it back with `JSON.parse`, which is the
  identity on trees with distinct keys; `stringifyJVal` is only used for
  the byte-length accounting, mirroring `dataString.length`).
* `decodeVal` embeds the `bufferReceiver` reviver of `exports.read`
  (applied bottom-up by `JSON.parse`) together with the subsequent
  segment-file reads: a placeholder allocates a zero-filled buffer of the
  declared size and `fs.read` fills at most `min(size, file length)`
  bytes, so a short file silently leaves the tail zero-filled while a
  missing file rejects (`none`).
* `Metadata`/`Entry` mirror `meta.json`; entries are an association list
  in insertion order (JavaScript objects preserve string-key insertion
  order, which `Object.values` and the stable `Array.prototype.sort` of
  `reduceCacheSize` rely on).  `writeOp`, `deleteOp` and
  `reduceCacheSize` mirror the control flow of `exports.write`,
  `exports.delete` and `reduceCacheSize`; each returns the resulting
  index together with a trace of the file-system effects it performed,
  and `Except`/`Option` model rejected promises.

Modelling boundaries (none affect the claims below): numbers are `Int`
(the module only produces integer sizes/indices/timestamps and prints
them the way `Int` does); `String.length` counts code points where
JavaScript counts UTF-16 units; coercion of non-numeric array elements
inside `Buffer.from` maps strings to `0` rather than parsing numeric
strings.
-/

set_option maxHeartbeats 1600000
set_option maxRecDepth 200000

abbrev Bytes := List (Fin 256)

mutual
inductive JVal where
  | null
  | bool (b : Bool)
  | num (n : Int)
  | str (s : String)
  | buf (bytes : Bytes)
  | arr (elems : JList)
  | obj (fields : JFields)
inductive JList where
  | nil
  | cons (hd : JVal) (tl : JList)
inductive JFields where
  | nil
  | cons (key : String) (val : JVal) (tl : JFields)
end

/-- Property lookup on an object, `value.key` (keys of a JavaScript object
are unique, so first match is the match). -/
def lookupF : JFields → String → Option JVal
  | .nil, _ => none
  | .cons k v fs, key => if k = key then some v else lookupF fs key

/-- The `toJSON` image of a buffer's byte array: `data: [...]`. -/
def bytesToJList : Bytes → JList
  | [] => .nil
  | b :: bs => .cons (.num b.val) (bytesToJList bs)

/-- A JSON array of numbers, for quantifying over `data: [...]` arrays. -/
def numList : List Int → JList
  | [] => .nil
  | n :: ns => .cons (.num n) (numList ns)

/-- The placeholder object returned by the replacer:
`{type: 'ExternalBuffer', index: ..., size: ...}` (json-file-store.js:68-72). -/
def extBufObj (i s : Int) : JVal :=
  .obj (.cons "type" (.str "ExternalBuffer")
       (.cons "index" (.num i)
       (.cons "size" (.num s) .nil)))

/-- The inline serialized form of a buffer, `{type: 'Buffer', data: [...]}`
(Buffer.prototype.toJSON). -/
def inlineBufObj (b : Bytes) : JVal :=
  .obj (.cons "type" (.str "Buffer")
       (.cons "data" (.arr (bytesToJList b)) .nil))

/-- Coercion of one array element by `Buffer.from`: numbers are taken
mod 256, booleans via ToNumber, everything else becomes 0. -/
def toByte : JVal → Fin 256
  | .num n => ⟨(n % 256).toNat, by omega⟩
  | .bool true => 1
  | _ => 0

def jmapToByte : JList → Bytes
  | .nil => []
  | .cons v vs => toByte v :: jmapToByte vs

/-- JavaScript truthiness, used by the `value && value.data` tests. -/
def jsTruthy : JVal → Bool
  | .null => false
  | .bool b => b
  | .num n => !(n == 0)
  | .str s => !(s == "")
  | _ => true

def jlength : JList → Nat
  | .nil => 0
  | .cons _ vs => jlength vs + 1

/-- `value.length` as read by `value.data.length >= 1024`: array length,
string length, buffer byte length, or a numeric `length` property of a
plain object (array-like); otherwise `undefined` (none), which makes the
`>= 1024` comparison false. -/
def jsLength : JVal → Option Int
  | .arr l => some (jlength l : Int)
  | .str s => some (s.length : Int)
  | .buf b => some (b.length : Int)
  | .obj fs => match lookupF fs "length" with
      | some (.num n) => some n
      | _ => none
  | _ => none

/-- The replacer's guard (json-file-store.js:61):
`value && value.type === 'Buffer' && value.data && value.data.length >= 1024`.
Returns the `data` value when the node is to be extracted. -/
def bigBufferData (fs : JFields) : Option JVal :=
  match lookupF fs "type" with
  | some (.str t) =>
    if t = "Buffer" then
      match lookupF fs "data" with
      | some d =>
        if jsTruthy d then
          match jsLength d with
          | some n => if 1024 ≤ n then some d else none
          | none => none
        else none
      | none => none
    else none
  | _ => none

def utf8Bytes (s : String) : Bytes :=
  s.toUTF8.toList.map (fun u => (⟨u.toNat % 256, by omega⟩ : Fin 256))

/-- `Buffer.from` on an array-like object with a numeric `length`. -/
def arrayLikeBytes (fs : JFields) (n : Int) : Bytes :=
  if n ≤ 0 then []
  else (List.range n.toNat).map (fun i => toByte ((lookupF fs (toString i)).getD .null))

/-- `Buffer.from(value)` for the values it accepts; `none` models the
`TypeError` it throws on numbers, booleans, `null` and plain objects
without a numeric `length`. -/
def bufferFrom : JVal → Option Bytes
  | .arr l => some (jmapToByte l)
  | .buf b => some b
  | .str s => some (utf8Bytes s)
  | .obj fs => match lookupF fs "length" with
      | some (.num n) => some (arrayLikeBytes fs n)
      | _ => none
  | _ => none

/-! Encoding: `JSON.stringify(data, replacerFunction)` restricted to its
structural effect.  The replacer runs top-down; a buffer is seen in its
`toJSON` form; a matching buffer-shaped node is replaced by a placeholder
carrying the next segment index (`externalBuffers.length`) and the byte
length of `Buffer.from(value.data)`, with the bytes appended to the
segment list (json-file-store.js:59-76).  The second component threads
the `externalBuffers` accumulator. -/
mutual
def encodeVal : JVal → List Bytes → JVal × List Bytes
  | .null, segs => (.null, segs)
  | .bool b, segs => (.bool b, segs)
  | .num n, segs => (.num n, segs)
  | .str s, segs => (.str s, segs)
  | .buf b, segs =>
      if 1024 ≤ b.length then (extBufObj segs.length b.length, segs ++ [b])
      else (inlineBufObj b, segs)
  | .arr l, segs =>
      let p := encodeList l segs
      (.arr p.1, p.2)
  | .obj fs, segs =>
      match bigBufferData fs with
      | some d =>
          let bytes := (bufferFrom d).getD []
          (extBufObj segs.length bytes.length, segs ++ [bytes])
      | none =>
          let p := encodeFields fs segs
          (.obj p.1, p.2)
def encodeList : JList → List Bytes → JList × List Bytes
  | .nil, segs => (.nil, segs)
  | .cons v vs, segs =>
      let p := encodeVal v segs
      let q := encodeList vs p.2
      (.cons p.1 q.1, q.2)
def encodeFields : JFields → List Bytes → JFields × List Bytes
  | .nil, segs => (.nil, segs)
  | .cons k v fs, segs =>
      let p := encodeVal v segs
      let q := encodeFields fs p.2
      (.cons k p.1 q.1, q.2)
end

/-- First guard of the reviver (json-file-store.js:118):
`value && value.type === 'Buffer' && value.data`. -/
def isBufShape (fs : JFields) : Bool :=
  (match lookupF fs "type" with
   | some (.str t) => t == "Buffer"
   | _ => false)
  &&
  (match lookupF fs "data" with
   | some d => jsTruthy d
   | none => false)

/-- Second guard of the reviver (json-file-store.js:120):
`value && value.type === 'ExternalBuffer' && typeof value.index === 'number'
&& typeof value.size === 'number'`. -/
def isExtShape (fs : JFields) : Bool :=
  (match lookupF fs "type" with
   | some (.str t) => t == "ExternalBuffer"
   | _ => false)
  &&
  (match lookupF fs "index" with
   | some (.num _) => true
   | _ => false)
  &&
  (match lookupF fs "size" with
   | some (.num _) => true
   | _ => false)

/-- What the reviver makes of an object node (children already revived):
a buffer-shaped node becomes `Buffer.from(value.data)`; an
`ExternalBuffer` placeholder becomes `Buffer.alloc(size)` (zero-filled,
`none` if `size < 0` since `Buffer.alloc` throws) later filled by
`fs.read(fd, buffer, 0, buffer.length, 0)` from segment file `index` —
`fs.open` rejects when the file is missing (`none`), while a short file
only fills a prefix and leaves the rest of the allocation zero. -/
def decodeShaped (fs : JFields) (files : List Bytes) : Option JVal :=
  if isBufShape fs then
    match lookupF fs "data" with
    | some d => (bufferFrom d).map .buf
    | none => none
  else if isExtShape fs then
    match lookupF fs "index", lookupF fs "size" with
    | some (.num i), some (.num s) =>
        if s < 0 then none
        else if i < 0 then none
        else match files[i.toNat]? with
          | none => none
          | some content =>
              some (.buf (content.take s.toNat ++ List.replicate (s.toNat - content.length) 0))
    | _, _ => none
  else some (.obj fs)

/-! Decoding: `JSON.parse(dataString, bufferReceiver)` plus the
segment-file reads of `exports.read` (json-file-store.js:111-140).  The
reviver runs bottom-up, so children are revived before the parent's
shape is inspected.  `files` is the list of segment-file contents,
position `i` standing for `<path>-<i>.bin`. -/
mutual
def decodeVal : JVal → List Bytes → Option JVal
  | .null, _ => some .null
  | .bool b, _ => some (.bool b)
  | .num n, _ => some (.num n)
  | .str s, _ => some (.str s)
  | .buf b, _ => some (.buf b)
  | .arr l, files =>
      match decodeList l files with
      | some l' => some (.arr l')
      | none => none
  | .obj fs, files =>
      match decodeFields fs files with
      | some fs' => decodeShaped fs' files
      | none => none
def decodeList : JList → List Bytes → Option JList
  | .nil, _ => some .nil
  | .cons v vs, files =>
      match decodeVal v files, decodeList vs files with
      | some v', some vs' => some (.cons v' vs')
      | _, _ => none
def decodeFields : JFields → List Bytes → Option JFields
  | .nil, _ => some .nil
  | .cons k v fs, files =>
      match decodeVal v files, decodeFields fs files with
      | some v', some fs' => some (.cons k v' fs')
      | _, _ => none
end

/-! ### JSON serialization, for the byte-length accounting
`dataString.length` of json-file-store.js:79. -/

def hexDigit (n : Nat) : Char :=
  if n < 10 then Char.ofNat (48 + n) else Char.ofNat (87 + n)

def escapeChar (c : Char) : String :=
  if c = Char.ofNat 34 then "\\\""
  else if c = Char.ofNat 92 then "\\\\"
  else if c = Char.ofNat 8 then "\\b"
  else if c = Char.ofNat 9 then "\\t"
  else if c = Char.ofNat 10 then "\\n"
  else if c = Char.ofNat 12 then "\\f"
  else if c = Char.ofNat 13 then "\\r"
  else if c.toNat < 32 then
    "\\u00" ++ String.singleton (hexDigit (c.toNat / 16)) ++ String.singleton (hexDigit (c.toNat % 16))
  else String.singleton c

def jsonQuote (s : String) : String :=
  "\"" ++ String.join (s.data.map escapeChar) ++ "\""

def joinComma : List String → String
  | [] => ""
  | [s] => s
  | s :: rest => s ++ "," ++ joinComma rest

mutual
def stringifyJVal : JVal → String
  | .null => "null"
  | .bool true => "true"
  | .bool false => "false"
  | .num n => toString n
  | .str s => jsonQuote s
  | .buf b =>
      "\x7b\"type\":\"Buffer\",\"data\":[" ++ joinComma (b.map (fun x => toString x.val)) ++ "]\x7d"
  | .arr l => "[" ++ joinComma (stringifyList l) ++ "]"
  | .obj fs => "\x7b" ++ joinComma (stringifyFields fs) ++ "\x7d"
def stringifyList : JList → List String
  | .nil => []
  | .cons v vs => stringifyJVal v :: stringifyList vs
def stringifyFields : JFields → List String
  | .nil => []
  | .cons k v fs => (jsonQuote k ++ ":" ++ stringifyJVal v) :: stringifyFields fs
end

/-! ### Metadata index and store operations -/

/-- One record of `meta.json`: `{path, size, created}` (json-file-store.js:97-101). -/
structure Entry where
  path : String
  size : Int
  created : Int
  deriving DecidableEq

/-- The metadata index `{size, entries}`; `entries` is an association
list in JavaScript insertion order. -/
structure Metadata where
  size : Int
  entries : List (String × Entry)
  deriving DecidableEq

def lookupE : List (String × Entry) → String → Option Entry
  | [], _ => none
  | (k, e) :: rest, key => if k = key then some e else lookupE rest key

/-- `metadata.entries[path] = v`: replaces in place if the key exists
(JavaScript keeps the original insertion position), else appends. -/
def setEntry : List (String × Entry) → String → Entry → List (String × Entry)
  | [], key, v => [(key, v)]
  | (k, e) :: rest, key, v =>
      if k = key then (key, v) :: rest else (k, e) :: setEntry rest key v

/-- `delete metadata.entries[path]`. -/
def eraseEntry : List (String × Entry) → String → List (String × Entry)
  | [], _ => []
  | (k, e) :: rest, key => if k = key then rest else (k, e) :: eraseEntry rest key

/-- Iterated effect of the eviction loop body on the index: for each
popped entry, subtract its size and remove its key. -/
def eraseAllMd (md : Metadata) (del : List Entry) : Metadata :=
  del.foldl (fun m e => ⟨m.size - e.size, eraseEntry m.entries e.path⟩) md

/-- The entries component of `eraseAllMd`. -/
def eraseAllE (l : List (String × Entry)) (del : List Entry) : List (String × Entry) :=
  del.foldl (fun es e => eraseEntry es e.path) l

def sumSizes (entries : List (String × Entry)) : Int :=
  (entries.map (fun pe => pe.2.size)).sum

def sumL (l : List Entry) : Int := (l.map Entry.size).sum

def createdLE (a b : Entry) : Prop := a.created ≤ b.created

instance : DecidableRel createdLE := fun a b => Int.decLe a.created b.created

instance : IsTotal Entry createdLE := ⟨fun a b => Int.le_total a.created b.created⟩

instance : IsTrans Entry createdLE := ⟨fun _ _ _ => Int.le_trans⟩

/-- `Object.values(metadata.entries).sort((a, b) => ...)` — a stable sort
ascending by `created` (json-file-store.js:35-39); a stable insertion
sort on the insertion-ordered values is extensionally that sort. -/
def sortByCreated (l : List Entry) : List Entry := List.insertionSort createdLE l

/-- The `while (sizeDeleted < bytesToReduce)` loop of `reduceCacheSize`
(json-file-store.js:43-49): pops the sorted list, accumulates the popped
entry, removes it from `entries` and subtracts its size.  `none` models
the `TypeError` raised by `entry.size` when `shift()` runs past the end
of the list. -/
def evictGo (bytesToReduce : Int) : List Entry → Int → Metadata → List Entry →
    Option (Metadata × List Entry)
  | l, sizeDeleted, md, acc =>
    if bytesToReduce ≤ sizeDeleted then some (md, acc)
    else match l with
      | [] => none
      | e :: rest =>
          evictGo bytesToReduce rest (sizeDeleted + e.size)
            ⟨md.size - e.size, eraseEntry md.entries e.path⟩ (acc ++ [e])

/-- `reduceCacheSize(metadata, bytesToReduce)` (json-file-store.js:34-54):
returns the mutated index and the list of evicted entries (whose files
the caller deletes via `exports.delete(entry.path, {})`). -/
def reduceCacheSize (md : Metadata) (bytesToReduce : Int) : Option (Metadata × List Entry) :=
  evictGo bytesToReduce (sortByCreated (md.entries.map Prod.snd)) 0 md []

inductive WErr where
  | entryTooLarge
  | evictionFault
  deriving DecidableEq

inductive DelErr where
  | notFound
  | noSuchEntry
  deriving DecidableEq

/-- File-system and index effects actually performed by an operation, in
program order (segment writes, dispatched jointly, are listed in index
order; `delFiles p` stands for the file removals done by
`exports.delete(p, {})` on behalf of eviction). -/
inductive Eff where
  | readMeta
  | writeMeta (md : Metadata)
  | writeDoc (path : String) (contents : String)
  | writeSeg (path : String) (idx : Nat) (content : Bytes)
  | unlinkDoc (path : String)
  | unlinkSeg (path : String) (idx : Nat)
  | delFiles (path : String)
  deriving DecidableEq

def segWrites (path : String) (segs : List Bytes) : List Eff :=
  segs.enum.map (fun p => Eff.writeSeg path p.1 p.2)

def encodeJ (data : JVal) : JVal × List Bytes := encodeVal data []

/-- `newDataLength = dataString.length + externalBuffersLength`
(json-file-store.js:79). -/
def newDataLength (data : JVal) : Int :=
  ((stringifyJVal (encodeJ data).1).length : Int)
    + (((encodeJ data).2.map List.length).sum : Nat)

/-- Steps 5-7 of `exports.write` after eviction: write the document,
add the entry and its size to the loaded index, persist it, then write
the segment files. -/
def finishWrite (path : String) (data : JVal) (md1 : Metadata) (now : Int)
    (delTrace : List Eff) : Except WErr Metadata × List Eff :=
  let md2 : Metadata :=
    ⟨md1.size + newDataLength data,
     setEntry md1.entries path ⟨path, newDataLength data, now⟩⟩
  (.ok md2,
   Eff.readMeta :: delTrace
     ++ [Eff.writeDoc path (stringifyJVal (encodeJ data).1), Eff.writeMeta md2]
     ++ segWrites path (encodeJ data).2)

/-- `exports.write(path, data, {path: cachePath, maxsize})`
(json-file-store.js:56-108).  `md` is the index `readMetaFile` would
load; the effect trace records what was performed, so an early rejection
has an empty trace. -/
def writeOp (path : String) (data : JVal) (maxsize : Int) (md : Metadata) (now : Int) :
    Except WErr Metadata × List Eff :=
  if maxsize < newDataLength data then (.error .entryTooLarge, [])
  else if maxsize < md.size + newDataLength data then
    match reduceCacheSize md (md.size + newDataLength data - maxsize) with
    | none => (.error .evictionFault, [Eff.readMeta])
    | some (md1, del) =>
        finishWrite path data md1 now (del.map (fun e => Eff.delFiles e.path))
  else finishWrite path data md now []

/-- `exports.delete(path, {path: cachePath})` (json-file-store.js:142-166).
`docPresent` says whether `<path>.json` exists (its `unlink` rejects with
ENOENT otherwise); `segCount` is the number of contiguous segment files
(the loop unlinks `0..segCount-1` and swallows the terminating ENOENT).
With a `cachePath`, the index is loaded, `metadata.entries[path].size`
is subtracted (a missing entry makes that property access throw —
`noSuchEntry`) and the index is persisted; the entry itself is never
removed from `entries`. -/
def deleteOp (path : String) (cachePath : Option String) (docPresent : Bool)
    (segCount : Nat) (md : Metadata) : Except DelErr Metadata × List Eff :=
  match docPresent with
  | false => (.error .notFound, [])
  | true =>
      let delTrace := Eff.unlinkDoc path :: (List.range segCount).map (Eff.unlinkSeg path)
      match cachePath with
      | none => (.ok md, delTrace)
      | some _ =>
          match lookupE md.entries path with
          | none => (.error .noSuchEntry, delTrace ++ [Eff.readMeta])
          | some e =>
              let md' : Metadata := ⟨md.size - e.size, md.entries⟩
              (.ok md', delTrace ++ [Eff.readMeta, Eff.writeMeta md'])

/-! ### Well-shaped values
The round-trip property quantifies over values that correspond to
JavaScript values (object keys unique) and whose objects do not collide
with the two shapes the codec sniffs for. -/

def hasKey : JFields → String → Bool
  | .nil, _ => false
  | .cons k _ fs, key => k == key || hasKey fs key

def keysND : JFields → Bool
  | .nil => true
  | .cons k _ fs => !(hasKey fs k) && keysND fs

/-- The object's `type` property is neither `'Buffer'` nor
`'ExternalBuffer'`, so neither the replacer nor the reviver mistakes it
for a serialized buffer. -/
def typeSafeF (fs : JFields) : Bool :=
  match lookupF fs "type" with
  | some (.str t) => !(t == "Buffer" || t == "ExternalBuffer")
  | _ => true

mutual
def cleanVal : JVal → Bool
  | .null => true
  | .bool _ => true
  | .num _ => true
  | .str _ => true
  | .buf _ => true
  | .arr l => cleanList l
  | .obj fs => typeSafeF fs && keysND fs && cleanFields fs
def cleanList : JList → Bool
  | .nil => true
  | .cons v vs => cleanVal v && cleanList vs
def cleanFields : JFields → Bool
  | .nil => true
  | .cons _ v fs => cleanVal v && cleanFields fs
end

/-- `files` holds the same contents as the segment list `full` on all
positions from `lo` on (the positions of the segments a sub-encoding
appended). -/
def SegAgree (lo : Nat) (full files : List Bytes) : Prop :=
  ∀ j, lo ≤ j → j < full.length → files[j]? = full[j]?

/-! ## Theorems -/

/-! ### Encoding only ever appends to the segment list -/

mutual
theorem encodeVal_mono (v : JVal) (segs : List Bytes) :
    ∃ d, (encodeVal v segs).2 = segs ++ d := by
  cases v with
  | null => exact ⟨[], by simp [encodeVal]⟩
  | bool b => exact ⟨[], by simp [encodeVal]⟩
  | num n => exact ⟨[], by simp [encodeVal]⟩
  | str s => exact ⟨[], by simp [encodeVal]⟩
  | buf b =>
      by_cases h : 1024 ≤ b.length
      · exact ⟨[b], by simp [encodeVal, h]⟩
      · exact ⟨[], by simp [encodeVal, h]⟩
  | arr l =>
      obtain ⟨d, hd⟩ := encodeList_mono l segs
      exact ⟨d, by simp [encodeVal, hd]⟩
  | obj fs =>
      cases hb : bigBufferData fs with
      | some d => exact ⟨[(bufferFrom d).getD []], by simp [encodeVal, hb]⟩
      | none =>
          obtain ⟨d, hd⟩ := encodeFields_mono fs segs
          exact ⟨d, by simp [encodeVal, hb, hd]⟩
theorem encodeList_mono (l : JList) (segs : List Bytes) :
    ∃ d, (encodeList l segs).2 = segs ++ d := by
  cases l with
  | nil => exact ⟨[], by simp [encodeList]⟩
  | cons v vs =>
      obtain ⟨d1, h1⟩ := encodeVal_mono v segs
      obtain ⟨d2, h2⟩ := encodeList_mono vs (encodeVal v segs).2
      rw [h1] at h2
      exact ⟨d1 ++ d2, by simp [encodeList, h1, h2, List.append_assoc]⟩
theorem encodeFields_mono (fs : JFields) (segs : List Bytes) :
    ∃ d, (encodeFields fs segs).2 = segs ++ d := by
  cases fs with
  | nil => exact ⟨[], by simp [encodeFields]⟩
  | cons k v rest =>
      obtain ⟨d1, h1⟩ := encodeVal_mono v segs
      obtain ⟨d2, h2⟩ := encodeFields_mono rest (encodeVal v segs).2
      rw [h1] at h2
      exact ⟨d1 ++ d2, by simp [encodeFields, h1, h2, List.append_assoc]⟩
end

/-- Decoding an `ExternalBuffer` placeholder, as a function of the
segment files: a missing file rejects, an existing file fills at most
`size` bytes and leaves the rest of the zero allocation. -/
theorem decodeVal_extBufObj (i s : Int) (files : List Bytes) :
    decodeVal (extBufObj i s) files =
      (if s < 0 then none
       else if i < 0 then none
       else match files[i.toNat]? with
         | none => none
         | some content =>
             some (.buf (content.take s.toNat ++ List.replicate (s.toNat - content.length) 0))) :=
  rfl

/-! ### The claims -/

/-- C8: deleting a path whose primary document file does not exist fails
with the underlying not-found condition before any index access: the
result is the ENOENT rejection and the effect trace is empty (no index
read, no index write), whether or not a cacheRoot is supplied. -/
theorem c8_delete_missing_doc_no_side_effects (path : String) (cachePath : Option String)
    (segCount : Nat) (md : Metadata) :
    deleteOp path cachePath false segCount md = (.error .notFound, []) :=
  rfl

/-- C1: the claimed invariant `index.size = Σ entries[*].size` does not
survive every successful write/delete sequence from the empty index.
Writing `"a"` (1 byte) and then deleting it with a cacheRoot succeeds,
but the persisted index keeps the entry while its size was subtracted
(`size = 0`, `Σ = 1`); likewise a write over an existing path double
counts (`size = 2`, `Σ = 1`). -/
theorem c1_size_invariant_violated :
    (writeOp "a" (.num 5) 100 ⟨0, []⟩ 10).1 = .ok ⟨1, [("a", ⟨"a", 1, 10⟩)]⟩
    ∧ (deleteOp "a" (some "r") true 0 ⟨1, [("a", ⟨"a", 1, 10⟩)]⟩).1
        = .ok ⟨0, [("a", ⟨"a", 1, 10⟩)]⟩
    ∧ Metadata.size ⟨0, [("a", ⟨"a", 1, 10⟩)]⟩
        ≠ sumSizes (Metadata.entries ⟨0, [("a", ⟨"a", 1, 10⟩)]⟩)
    ∧ (writeOp "a" (.num 7) 100 ⟨1, [("a", ⟨"a", 1, 10⟩)]⟩ 20).1
        = .ok ⟨2, [("a", ⟨"a", 1, 20⟩)]⟩
    ∧ Metadata.size ⟨2, [("a", ⟨"a", 1, 20⟩)]⟩
        ≠ sumSizes (Metadata.entries ⟨2, [("a", ⟨"a", 1, 20⟩)]⟩) :=
  ⟨rfl, rfl, by decide, rfl, by decide⟩

/-- C2: deleting a live path with a cacheRoot subtracts the entry's size
and persists the index, but does not remove the entry from the entries
map: the persisted index still maps the path to its old record. -/
theorem c2_delete_leaves_entry_in_map :
    (deleteOp "p" (some "root") true 0 ⟨5, [("p", ⟨"p", 5, 3⟩)]⟩).1
      = .ok ⟨0, [("p", ⟨"p", 5, 3⟩)]⟩
    ∧ lookupE (Metadata.entries ⟨0, [("p", ⟨"p", 5, 3⟩)]⟩) "p" = some ⟨"p", 5, 3⟩ :=
  ⟨rfl, rfl⟩

/-- C5: a value whose encoded size (document length plus segment
lengths) exceeds maxsize is rejected with the entry-too-large error
before any I/O: the effect trace is empty, so no document file, no
segment file, and no index read or write happened. -/
theorem c5_too_large_rejected_before_io (path : String) (data : JVal) (maxsize : Int)
    (md : Metadata) (now : Int) (h : maxsize < newDataLength data) :
    writeOp path data maxsize md now = (.error .entryTooLarge, []) := by
  unfold writeOp
  rw [if_pos h]

theorem c5_witness :
    (0 : Int) < newDataLength (.num 5)
    ∧ writeOp "p" (.num 5) 0 ⟨0, []⟩ 0 = (.error .entryTooLarge, []) :=
  ⟨by decide, c5_too_large_rejected_before_io "p" (.num 5) 0 ⟨0, []⟩ 0 (by decide)⟩

/-- C6: encoding extracts exactly the buffers of length at least 1024 —
a large buffer becomes an `ExternalBuffer` placeholder carrying the next
segment index and its size, with the raw bytes appended to the segment
list (so extraction order is traversal order: the list only grows at the
tail), while a buffer of 1023 bytes or less stays inline. -/
theorem c6_threshold_extraction :
    (∀ (v : JVal) (segs : List Bytes), ∃ d, (encodeVal v segs).2 = segs ++ d)
    ∧ (∀ (b : Bytes) (segs : List Bytes), 1024 ≤ b.length →
        encodeVal (.buf b) segs = (extBufObj segs.length b.length, segs ++ [b]))
    ∧ (∀ (b : Bytes) (segs : List Bytes), b.length < 1024 →
        encodeVal (.buf b) segs = (inlineBufObj b, segs)) := by
  refine ⟨encodeVal_mono, ?_, ?_⟩
  · intro b segs h
    simp [encodeVal, h]
  · intro b segs h
    simp [encodeVal, Nat.not_le.mpr h]

theorem c6_witness :
    encodeVal (.buf (List.replicate 1024 (7 : Fin 256))) []
      = (extBufObj 0 1024, [List.replicate 1024 (7 : Fin 256)])
    ∧ encodeVal (.buf (List.replicate 1023 (7 : Fin 256))) []
      = (inlineBufObj (List.replicate 1023 (7 : Fin 256)), []) := by
  constructor
  · have h := c6_threshold_extraction.2.1 (List.replicate 1024 (7 : Fin 256)) [] (by simp)
    simpa using h
  · have h := c6_threshold_extraction.2.2 (List.replicate 1023 (7 : Fin 256)) [] (by simp)
    simpa using h

/-- C7 counterexample: a primary document consisting of one
`ExternalBuffer` placeholder declaring size 4 whose segment file holds
only 2 bytes does not fail on read — it succeeds and returns the
zero-padded buffer `[1, 2, 0, 0]`, contradicting the claim that a
shorter-than-declared segment file makes read fail with CorruptEntry. -/
theorem c7_truncated_segment_read_succeeds :
    decodeVal (extBufObj 0 4) [[1, 2]] ≠ none
    ∧ decodeVal (extBufObj 0 4) [[1, 2]] = some (.buf [1, 2, 0, 0]) := by
  constructor
  · intro h
    rw [show decodeVal (extBufObj 0 4) [[1, 2]] = some (.buf [1, 2, 0, 0]) from rfl] at h
    exact Option.noConfusion h
  · rfl

/-- C7 (amended): reading a document with an `ExternalBuffer`
placeholder fails (with the underlying open error) exactly when the
referenced segment file is missing; when the file exists but is shorter
than the declared size, the read succeeds and returns the file's bytes
zero-padded to the declared size (a longer file is silently truncated
to it) — there is no corruption check against the declared size. -/
theorem c7_missing_segment_fails_truncated_zero_pads (i s : Nat) (files : List Bytes) :
    (files[i]? = none → decodeVal (extBufObj i s) files = none)
    ∧ (∀ content, files[i]? = some content →
        decodeVal (extBufObj i s) files
          = some (.buf (content.take s ++ List.replicate (s - content.length) 0))) := by
  have hs : ¬ ((s : Int) < 0) := by omega
  have hi : ¬ ((i : Int) < 0) := by omega
  constructor
  · intro h
    rw [decodeVal_extBufObj, if_neg hs, if_neg hi]
    simp [h]
  · intro content h
    rw [decodeVal_extBufObj, if_neg hs, if_neg hi]
    simp [h]

theorem c7_witness :
    decodeVal (extBufObj 1 4) [[1, 2]] = none
    ∧ decodeVal (extBufObj 0 4) [[9, 9]] = some (.buf [9, 9, 0, 0]) := by
  constructor
  · exact (c7_missing_segment_fails_truncated_zero_pads 1 4 [[1, 2]]).1 rfl
  · have h := (c7_missing_segment_fails_truncated_zero_pads 0 4 [[9, 9]]).2 [9, 9] rfl
    exact h.trans rfl

/-! ### Eviction -/

theorem sumL_nonneg (l : List Entry) (h : ∀ e ∈ l, 0 ≤ e.size) : 0 ≤ sumL l := by
  induction l with
  | nil => simp [sumL]
  | cons e rest ih =>
      have h1 := h e (by simp)
      have h2 := ih (fun x hx => h x (by simp [hx]))
      simp only [sumL, List.map_cons, List.sum_cons] at h2 ⊢
      omega

/-- When the remaining entries cannot reach the target, the eviction
loop `shift()`s past the end of the sorted list and faults. -/
theorem evictGo_exhaust (b : Int) (l : List Entry) :
    ∀ (sd : Int) (md : Metadata) (acc : List Entry),
      (∀ e ∈ l, 0 ≤ e.size) → sd + sumL l < b → evictGo b l sd md acc = none := by
  induction l with
  | nil =>
      intro sd md acc _ hlt
      have hnb : ¬ b ≤ sd := by
        simp only [sumL, List.map_nil, List.sum_nil] at hlt
        omega
      have hstep : evictGo b [] sd md acc = if b ≤ sd then some (md, acc) else none := rfl
      rw [hstep, if_neg hnb]
  | cons e rest ih =>
      intro sd md acc hnn hlt
      have hrest : ∀ x ∈ rest, 0 ≤ x.size := fun x hx => hnn x (by simp [hx])
      have hnb : ¬ b ≤ sd := by
        have hr := sumL_nonneg rest hrest
        have he := hnn e (by simp)
        simp only [sumL, List.map_cons, List.sum_cons] at hlt
        simp only [sumL] at hr
        omega
      have hstep : evictGo b (e :: rest) sd md acc
          = if b ≤ sd then some (md, acc)
            else evictGo b rest (sd + e.size)
              ⟨md.size - e.size, eraseEntry md.entries e.path⟩ (acc ++ [e]) := rfl
      rw [hstep, if_neg hnb]
      refine ih (sd + e.size) _ _ hrest ?_
      simp only [sumL, List.map_cons, List.sum_cons] at hlt ⊢
      omega

theorem sumL_map_snd (entries : List (String × Entry)) :
    sumL (entries.map Prod.snd) = sumSizes entries := by
  simp only [sumL, sumSizes, List.map_map]
  rfl

theorem sumL_sortByCreated (l : List Entry) : sumL (sortByCreated l) = sumL l := by
  unfold sumL sortByCreated
  exact List.Perm.sum_eq (List.Perm.map Entry.size (List.perm_insertionSort createdLE l))

theorem mem_sortByCreated {e : Entry} {l : List Entry} :
    e ∈ sortByCreated l ↔ e ∈ l :=
  List.Perm.mem_iff (List.perm_insertionSort createdLE l)

/-- C9: when the cumulative entry sizes are insufficient to reach
`bytesToReduce`, the eviction loop runs past the end of the sorted entry
list and faults (the `undefined.size` access after an empty `shift()`),
rather than terminating normally with a partial result. -/
theorem c9_insufficient_entries_fault (md : Metadata) (b : Int)
    (hnn : ∀ pe ∈ md.entries, 0 ≤ pe.2.size)
    (hlt : sumSizes md.entries < b) :
    reduceCacheSize md b = none := by
  unfold reduceCacheSize
  apply evictGo_exhaust
  · intro e he
    obtain ⟨pe, hpe, rfl⟩ := List.mem_map.1 (mem_sortByCreated.1 he)
    exact hnn pe hpe
  · rw [sumL_sortByCreated, sumL_map_snd]
    omega

theorem c9_witness :
    (∀ pe ∈ ([("a", ⟨"a", 1, 0⟩)] : List (String × Entry)), 0 ≤ pe.2.size)
    ∧ sumSizes [("a", ⟨"a", 1, 0⟩)] < 5
    ∧ reduceCacheSize ⟨1, [("a", ⟨"a", 1, 0⟩)]⟩ 5 = none :=
  ⟨by decide, by decide,
   c9_insufficient_entries_fault ⟨1, [("a", ⟨"a", 1, 0⟩)]⟩ 5 (by decide) (by decide)⟩


theorem eraseAllMd_cons (md : Metadata) (e : Entry) (del : List Entry) :
    eraseAllMd md (e :: del) = eraseAllMd ⟨md.size - e.size, eraseEntry md.entries e.path⟩ del :=
  rfl

theorem eraseAllMd_size (del : List Entry) :
    ∀ md : Metadata, (eraseAllMd md del).size = md.size - sumL del := by
  induction del with
  | nil =>
      intro md
      simp [eraseAllMd, sumL]
  | cons e rest ih =>
      intro md
      rw [eraseAllMd_cons, ih]
      simp only [sumL, List.map_cons, List.sum_cons]
      omega

theorem eraseAllMd_entries (del : List Entry) :
    ∀ md : Metadata, (eraseAllMd md del).entries = eraseAllE md.entries del := by
  induction del with
  | nil => intro md; rfl
  | cons e rest ih =>
      intro md
      rw [eraseAllMd_cons, ih]
      rfl

theorem lookupE_eq_none_of_not_mem (l : List (String × Entry)) (k : String)
    (h : k ∉ l.map Prod.fst) : lookupE l k = none := by
  induction l with
  | nil => rfl
  | cons p rest ih =>
      obtain ⟨q, ev⟩ := p
      simp only [List.map_cons, List.mem_cons, not_or] at h
      have hq : ¬ q = k := fun hk => h.1 hk.symm
      simp only [lookupE, if_neg hq]
      exact ih h.2

theorem lookupE_eraseEntry_ne (l : List (String × Entry)) (k p : String) (h : p ≠ k) :
    lookupE (eraseEntry l k) p = lookupE l p := by
  induction l with
  | nil => rfl
  | cons q rest ih =>
      obtain ⟨qk, qe⟩ := q
      by_cases hq : qk = k
      · simp only [eraseEntry, if_pos hq, lookupE]
        have hnp : ¬ qk = p := fun hp => h (by rw [← hp]; exact hq)
        rw [if_neg hnp]
      · simp only [eraseEntry, if_neg hq, lookupE]
        by_cases hp : qk = p
        · rw [if_pos hp, if_pos hp]
        · rw [if_neg hp, if_neg hp]
          exact ih

theorem lookupE_eraseEntry_none (l : List (String × Entry)) (k p : String)
    (h : lookupE l p = none) : lookupE (eraseEntry l k) p = none := by
  induction l with
  | nil => rfl
  | cons q rest ih =>
      obtain ⟨qk, qe⟩ := q
      simp only [lookupE] at h
      by_cases hp : qk = p
      · rw [if_pos hp] at h
        exact Option.noConfusion h
      · rw [if_neg hp] at h
        by_cases hq : qk = k
        · simp only [eraseEntry, if_pos hq]
          exact h
        · simp only [eraseEntry, if_neg hq, lookupE, if_neg hp]
          exact ih h

theorem eraseEntry_keys_sublist (l : List (String × Entry)) (k : String) :
    List.Sublist ((eraseEntry l k).map Prod.fst) (l.map Prod.fst) := by
  induction l with
  | nil => simp [eraseEntry]
  | cons q rest ih =>
      by_cases hq : q.1 = k
      · simp only [eraseEntry, if_pos hq, List.map_cons]
        exact (List.sublist_cons_self q.1 (rest.map Prod.fst))
      · simp only [eraseEntry, if_neg hq, List.map_cons]
        exact ih.cons₂ q.1

theorem eraseEntry_keysNodup (l : List (String × Entry)) (k : String)
    (h : (l.map Prod.fst).Nodup) : ((eraseEntry l k).map Prod.fst).Nodup :=
  (eraseEntry_keys_sublist l k).nodup h

theorem lookupE_eraseEntry_self (l : List (String × Entry)) (k : String)
    (h : (l.map Prod.fst).Nodup) : lookupE (eraseEntry l k) k = none := by
  induction l with
  | nil => rfl
  | cons q rest ih =>
      simp only [List.map_cons, List.nodup_cons] at h
      by_cases hq : q.1 = k
      · simp only [eraseEntry, if_pos hq]
        apply lookupE_eq_none_of_not_mem
        rw [← hq]
        exact h.1
      · simp only [eraseEntry, if_neg hq, lookupE, if_neg hq]
        exact ih h.2

theorem lookupE_eraseAllE_not_mem (del : List Entry) :
    ∀ (l : List (String × Entry)) (p : String), p ∉ del.map Entry.path →
      lookupE (eraseAllE l del) p = lookupE l p := by
  induction del with
  | nil => intro l p _; rfl
  | cons e rest ih =>
      intro l p hp
      simp only [List.map_cons, List.mem_cons, not_or] at hp
      have hstep : eraseAllE l (e :: rest) = eraseAllE (eraseEntry l e.path) rest := rfl
      rw [hstep, ih _ _ hp.2]
      exact lookupE_eraseEntry_ne l e.path p hp.1

theorem lookupE_eraseAllE_none (del : List Entry) :
    ∀ (l : List (String × Entry)) (p : String), lookupE l p = none →
      lookupE (eraseAllE l del) p = none := by
  induction del with
  | nil => intro l p h; exact h
  | cons e rest ih =>
      intro l p h
      have hstep : eraseAllE l (e :: rest) = eraseAllE (eraseEntry l e.path) rest := rfl
      rw [hstep]
      exact ih _ _ (lookupE_eraseEntry_none l e.path p h)

theorem lookupE_eraseAllE_mem (del : List Entry) :
    ∀ (l : List (String × Entry)) (e : Entry), (l.map Prod.fst).Nodup → e ∈ del →
      lookupE (eraseAllE l del) e.path = none := by
  induction del with
  | nil =>
      intro l e _ he
      exact absurd he (List.not_mem_nil e)
  | cons d rest ih =>
      intro l e hnd he
      have hstep : eraseAllE l (d :: rest) = eraseAllE (eraseEntry l d.path) rest := rfl
      rw [hstep]
      rcases List.mem_cons.1 he with rfl | hmem
      · exact lookupE_eraseAllE_none rest _ _ (lookupE_eraseEntry_self l e.path hnd)
      · exact ih _ _ (eraseEntry_keysNodup l d.path hnd) hmem

/-- The eviction loop, when the remaining entries suffice: it consumes a
minimal prefix `del` of the sorted list whose sizes reach the target,
removing exactly those entries and their sizes from the index. -/
theorem evictGo_sufficient (b : Int) (l : List Entry) :
    ∀ (sd : Int) (md : Metadata) (acc : List Entry), b ≤ sd + sumL l →
      ∃ del rest, l = del ++ rest
        ∧ evictGo b l sd md acc = some (eraseAllMd md del, acc ++ del)
        ∧ b ≤ sd + sumL del
        ∧ ∀ pre, (∃ suf, pre ++ suf = del) → pre ≠ del → sd + sumL pre < b := by
  induction l with
  | nil =>
      intro sd md acc hle
      simp only [sumL, List.map_nil, List.sum_nil] at hle
      refine ⟨[], [], rfl, ?_, by simp [sumL]; omega, ?_⟩
      · have hstep : evictGo b [] sd md acc = if b ≤ sd then some (md, acc) else none := rfl
        rw [hstep, if_pos (by omega)]
        simp [eraseAllMd]
      · rintro pre ⟨suf, hps⟩ hne
        rcases List.append_eq_nil.1 hps with ⟨rfl, rfl⟩
        exact absurd rfl hne
  | cons e rest ih =>
      intro sd md acc hle
      by_cases hsd : b ≤ sd
      · refine ⟨[], e :: rest, rfl, ?_, by simp [sumL]; omega, ?_⟩
        · have hstep : evictGo b (e :: rest) sd md acc
              = if b ≤ sd then some (md, acc)
                else evictGo b rest (sd + e.size)
                  ⟨md.size - e.size, eraseEntry md.entries e.path⟩ (acc ++ [e]) := rfl
          rw [hstep, if_pos hsd]
          simp [eraseAllMd]
        · rintro pre ⟨suf, hps⟩ hne
          rcases List.append_eq_nil.1 hps with ⟨rfl, rfl⟩
          exact absurd rfl hne
      · have hle' : b ≤ (sd + e.size) + sumL rest := by
          simp only [sumL, List.map_cons, List.sum_cons] at hle ⊢
          omega
        obtain ⟨del', rest', hsplit, hrun, hreach, hmin⟩ :=
          ih (sd + e.size) ⟨md.size - e.size, eraseEntry md.entries e.path⟩ (acc ++ [e]) hle'
        refine ⟨e :: del', rest', by rw [List.cons_append, hsplit], ?_, ?_, ?_⟩
        · have hstep : evictGo b (e :: rest) sd md acc
              = if b ≤ sd then some (md, acc)
                else evictGo b rest (sd + e.size)
                  ⟨md.size - e.size, eraseEntry md.entries e.path⟩ (acc ++ [e]) := rfl
          rw [hstep, if_neg hsd, hrun, eraseAllMd_cons]
          simp [List.append_assoc]
        · simp only [sumL, List.map_cons, List.sum_cons] at hreach ⊢
          omega
        · rintro pre ⟨suf, hps⟩ hne
          cases pre with
          | nil =>
              simp only [sumL, List.map_nil, List.sum_nil]
              omega
          | cons p0 ptl =>
              rw [List.cons_append] at hps
              injection hps with hp0 htl
              subst hp0
              have hne' : ptl ≠ del' := fun hh => hne (by rw [hh])
              have := hmin ptl ⟨suf, htl⟩ hne'
              simp only [sumL, List.map_cons, List.sum_cons] at this ⊢
              omega

/-- C3: when a write's projected total `index.size + totalSize` exceeds
maxsize (the entry itself fitting, and the index holding enough bytes to
evict), eviction runs with `bytesToReduce = index.size + totalSize -
maxsize`: it pops a minimal prefix of the entries sorted ascending by
creation time — each pop removes that entry from the entries map and
subtracts its size from the index size — stopping as soon as the freed
size reaches `bytesToReduce`; entries not popped are left unchanged, and
the write proceeds on the reduced index. -/
theorem c3_eviction_oldest_first (path : String) (data : JVal) (maxsize : Int)
    (md : Metadata) (now : Int)
    (hkeys : (md.entries.map Prod.fst).Nodup)
    (hfit : newDataLength data ≤ maxsize)
    (hover : maxsize < md.size + newDataLength data)
    (hsuf : md.size + newDataLength data - maxsize ≤ sumSizes md.entries) :
    ∃ del rest md1,
      reduceCacheSize md (md.size + newDataLength data - maxsize) = some (md1, del)
      ∧ sortByCreated (md.entries.map Prod.snd) = del ++ rest
      ∧ List.Sorted createdLE (del ++ rest)
      ∧ md.size + newDataLength data - maxsize ≤ sumL del
      ∧ (∀ pre, (∃ suf, pre ++ suf = del) → pre ≠ del →
          sumL pre < md.size + newDataLength data - maxsize)
      ∧ md1.size = md.size - sumL del
      ∧ (∀ e ∈ del, lookupE md1.entries e.path = none)
      ∧ (∀ p, p ∉ del.map Entry.path → lookupE md1.entries p = lookupE md.entries p)
      ∧ (writeOp path data maxsize md now).1
          = .ok ⟨md1.size + newDataLength data,
                 setEntry md1.entries path ⟨path, newDataLength data, now⟩⟩ := by
  have hsum0 : md.size + newDataLength data - maxsize
      ≤ 0 + sumL (sortByCreated (md.entries.map Prod.snd)) := by
    rw [sumL_sortByCreated, sumL_map_snd]
    omega
  obtain ⟨del, rest, hsplit, hrun, hreach, hmin⟩ :=
    evictGo_sufficient (md.size + newDataLength data - maxsize)
      (sortByCreated (md.entries.map Prod.snd)) 0 md [] hsum0
  have hred : reduceCacheSize md (md.size + newDataLength data - maxsize)
      = some (eraseAllMd md del, del) := by
    unfold reduceCacheSize
    rw [hrun]
    simp
  refine ⟨del, rest, eraseAllMd md del, hred, hsplit, ?_, ?_, ?_, ?_, ?_, ?_, ?_⟩
  · rw [← hsplit]
    exact List.sorted_insertionSort createdLE (md.entries.map Prod.snd)
  · omega
  · intro pre hps hne
    have := hmin pre hps hne
    omega
  · exact eraseAllMd_size del md
  · intro e he
    rw [eraseAllMd_entries]
    exact lookupE_eraseAllE_mem del md.entries e hkeys he
  · intro p hp
    rw [eraseAllMd_entries]
    exact lookupE_eraseAllE_not_mem del md.entries p hp
  · have hn1 : ¬ maxsize < newDataLength data := not_lt.mpr hfit
    unfold writeOp
    rw [if_neg hn1, if_pos hover, hred]
    rfl

theorem c3_witness :
    ∃ del rest md1,
      reduceCacheSize ⟨3, [("A", ⟨"A", 2, 100⟩), ("B", ⟨"B", 1, 200⟩)]⟩
          ((3 : Int) + newDataLength (.str "xx") - 5) = some (md1, del)
      ∧ sortByCreated (([("A", ⟨"A", 2, 100⟩), ("B", ⟨"B", 1, 200⟩)] :
            List (String × Entry)).map Prod.snd) = del ++ rest
      ∧ List.Sorted createdLE (del ++ rest)
      ∧ (3 : Int) + newDataLength (.str "xx") - 5 ≤ sumL del
      ∧ (∀ pre, (∃ suf, pre ++ suf = del) → pre ≠ del →
          sumL pre < 3 + newDataLength (.str "xx") - 5)
      ∧ md1.size = 3 - sumL del
      ∧ (∀ e ∈ del, lookupE md1.entries e.path = none)
      ∧ (∀ p, p ∉ del.map Entry.path →
          lookupE md1.entries p = lookupE [("A", ⟨"A", 2, 100⟩), ("B", ⟨"B", 1, 200⟩)] p)
      ∧ (writeOp "x" (.str "xx") 5 ⟨3, [("A", ⟨"A", 2, 100⟩), ("B", ⟨"B", 1, 200⟩)]⟩ 999).1
          = .ok ⟨md1.size + newDataLength (.str "xx"),
                 setEntry md1.entries "x" ⟨"x", newDataLength (.str "xx"), 999⟩⟩ :=
  c3_eviction_oldest_first "x" (.str "xx") 5 ⟨3, [("A", ⟨"A", 2, 100⟩), ("B", ⟨"B", 1, 200⟩)]⟩ 999
    (by decide) (by decide) (by decide) (by decide)

/-! ### Round trip for the codec -/

theorem jmapToByte_bytesToJList (b : Bytes) : jmapToByte (bytesToJList b) = b := by
  induction b with
  | nil => rfl
  | cons x xs ih =>
      simp only [bytesToJList, jmapToByte, ih]
      congr 1
      have hx := x.isLt
      apply Fin.ext
      simp only [toByte]
      omega

theorem decodeList_bytesToJList (b : Bytes) (files : List Bytes) :
    decodeList (bytesToJList b) files = some (bytesToJList b) := by
  induction b with
  | nil => rfl
  | cons x xs ih =>
      simp only [bytesToJList, decodeList, decodeVal, ih]

theorem decodeShaped_inline (b : Bytes) (files : List Bytes) :
    decodeShaped (.cons "type" (.str "Buffer") (.cons "data" (.arr (bytesToJList b)) .nil)) files
      = some (.buf b) := by
  have h : decodeShaped (.cons "type" (.str "Buffer")
        (.cons "data" (.arr (bytesToJList b)) .nil)) files
      = some (.buf (jmapToByte (bytesToJList b))) := rfl
  rw [h, jmapToByte_bytesToJList]

theorem decodeVal_inlineBufObj (b : Bytes) (files : List Bytes) :
    decodeVal (inlineBufObj b) files = some (.buf b) := by
  have h1 : decodeFields (.cons "type" (.str "Buffer")
        (.cons "data" (.arr (bytesToJList b)) .nil)) files
      = some (.cons "type" (.str "Buffer") (.cons "data" (.arr (bytesToJList b)) .nil)) := by
    simp only [decodeFields, decodeVal, decodeList_bytesToJList]
  show decodeVal (.obj (.cons "type" (.str "Buffer")
        (.cons "data" (.arr (bytesToJList b)) .nil))) files = some (.buf b)
  simp only [decodeVal, h1, decodeShaped_inline]

theorem isBufShape_false_of_typeSafe (fs : JFields) (h : typeSafeF fs = true) :
    isBufShape fs = false := by
  unfold typeSafeF at h
  unfold isBufShape
  cases hl : lookupF fs "type" with
  | none => simp
  | some v =>
      rw [hl] at h
      cases v with
      | null => simp
      | bool b => simp
      | num n => simp
      | buf b => simp
      | arr l => simp
      | obj o => simp
      | str t =>
          simp only [Bool.not_eq_true', Bool.or_eq_false_iff] at h
          simp [h.1]

theorem isExtShape_false_of_typeSafe (fs : JFields) (h : typeSafeF fs = true) :
    isExtShape fs = false := by
  unfold typeSafeF at h
  unfold isExtShape
  cases hl : lookupF fs "type" with
  | none => simp
  | some v =>
      rw [hl] at h
      cases v with
      | null => simp
      | bool b => simp
      | num n => simp
      | buf b => simp
      | arr l => simp
      | obj o => simp
      | str t =>
          simp only [Bool.not_eq_true', Bool.or_eq_false_iff] at h
          simp [h.2]

theorem decodeShaped_obj_of_typeSafe (fs : JFields) (files : List Bytes)
    (h : typeSafeF fs = true) : decodeShaped fs files = some (.obj fs) := by
  unfold decodeShaped
  rw [isBufShape_false_of_typeSafe fs h, isExtShape_false_of_typeSafe fs h]
  simp

theorem bigBufferData_none_of_typeSafe (fs : JFields) (h : typeSafeF fs = true) :
    bigBufferData fs = none := by
  unfold typeSafeF at h
  unfold bigBufferData
  cases hl : lookupF fs "type" with
  | none => rfl
  | some v =>
      rw [hl] at h
      cases v with
      | null => rfl
      | bool b => rfl
      | num n => rfl
      | buf b => rfl
      | arr l => rfl
      | obj o => rfl
      | str t =>
          simp only [Bool.not_eq_true', Bool.or_eq_false_iff] at h
          have hne : ¬ t = "Buffer" := ne_of_beq_false h.1
          simp [hne]

theorem segAgree_mono {lo lo' : Nat} {full files : List Bytes}
    (h : SegAgree lo full files) (hle : lo ≤ lo') : SegAgree lo' full files :=
  fun j hj hjl => h j (le_trans hle hj) hjl

theorem segAgree_prefix {lo : Nat} {l1 d files : List Bytes}
    (h : SegAgree lo (l1 ++ d) files) : SegAgree lo l1 files := by
  intro j hj hjl
  have hlen : j < (l1 ++ d).length := by
    rw [List.length_append]
    omega
  rw [h j hj hlen, List.getElem?_append, if_pos hjl]

mutual
theorem decode_encode_val (v : JVal) (segs files : List Bytes)
    (hc : cleanVal v = true)
    (hagree : SegAgree segs.length (encodeVal v segs).2 files) :
    decodeVal (encodeVal v segs).1 files = some v := by
  cases v with
  | null => rfl
  | bool b => rfl
  | num n => rfl
  | str s => rfl
  | buf b =>
      by_cases hlen : 1024 ≤ b.length
      · have henc : encodeVal (.buf b) segs
            = (extBufObj segs.length b.length, segs ++ [b]) := by
          simp [encodeVal, hlen]
        rw [henc] at hagree
        rw [henc]
        have hfile : files[segs.length]? = some b := by
          have hidx : segs.length < (segs ++ [b]).length := by simp
          rw [hagree segs.length (le_refl segs.length) hidx]
          exact List.getElem?_concat_length segs b
        rw [decodeVal_extBufObj]
        rw [if_neg (by omega : ¬ ((b.length : Int) < 0)),
            if_neg (by omega : ¬ ((segs.length : Int) < 0))]
        rw [Int.toNat_natCast, Int.toNat_natCast, hfile]
        simp
      · have henc : encodeVal (.buf b) segs = (inlineBufObj b, segs) := by
          simp [encodeVal, hlen]
        rw [henc]
        exact decodeVal_inlineBufObj b files
  | arr l =>
      have hc' : cleanList l = true := hc
      have henc : encodeVal (.arr l) segs
          = (.arr (encodeList l segs).1, (encodeList l segs).2) := by
        simp [encodeVal]
      rw [henc] at hagree
      rw [henc]
      have h1 := decode_encode_list l segs files hc' hagree
      simp only [decodeVal, h1]
  | obj fs =>
      simp only [cleanVal, Bool.and_eq_true] at hc
      have hbd := bigBufferData_none_of_typeSafe fs hc.1.1
      have henc : encodeVal (.obj fs) segs
          = (.obj (encodeFields fs segs).1, (encodeFields fs segs).2) := by
        simp [encodeVal, hbd]
      rw [henc] at hagree
      rw [henc]
      have hfs := decode_encode_fields fs segs files hc.2 hagree
      simp only [decodeVal, hfs]
      exact decodeShaped_obj_of_typeSafe fs files hc.1.1
theorem decode_encode_list (l : JList) (segs files : List Bytes)
    (hc : cleanList l = true)
    (hagree : SegAgree segs.length (encodeList l segs).2 files) :
    decodeList (encodeList l segs).1 files = some l := by
  cases l with
  | nil => rfl
  | cons v vs =>
      simp only [cleanList, Bool.and_eq_true] at hc
      have henc : encodeList (.cons v vs) segs
          = (.cons (encodeVal v segs).1 (encodeList vs (encodeVal v segs).2).1,
             (encodeList vs (encodeVal v segs).2).2) := by
        simp [encodeList]
      rw [henc] at hagree
      rw [henc]
      obtain ⟨d1, hd1⟩ := encodeVal_mono v segs
      obtain ⟨d2, hd2⟩ := encodeList_mono vs (encodeVal v segs).2
      have hagreeV : SegAgree segs.length (encodeVal v segs).2 files := by
        rw [hd2] at hagree
        exact segAgree_prefix hagree
      have hlo : segs.length ≤ (encodeVal v segs).2.length := by
        rw [hd1]
        simp
      have hagreeT : SegAgree (encodeVal v segs).2.length
          (encodeList vs (encodeVal v segs).2).2 files :=
        segAgree_mono hagree hlo
      have h1 := decode_encode_val v segs files hc.1 hagreeV
      have h2 := decode_encode_list vs (encodeVal v segs).2 files hc.2 hagreeT
      simp only [decodeList, h1, h2]
theorem decode_encode_fields (fs : JFields) (segs files : List Bytes)
    (hc : cleanFields fs = true)
    (hagree : SegAgree segs.length (encodeFields fs segs).2 files) :
    decodeFields (encodeFields fs segs).1 files = some fs := by
  cases fs with
  | nil => rfl
  | cons k v rest =>
      simp only [cleanFields, Bool.and_eq_true] at hc
      have henc : encodeFields (.cons k v rest) segs
          = (.cons k (encodeVal v segs).1 (encodeFields rest (encodeVal v segs).2).1,
             (encodeFields rest (encodeVal v segs).2).2) := by
        simp [encodeFields]
      rw [henc] at hagree
      rw [henc]
      obtain ⟨d1, hd1⟩ := encodeVal_mono v segs
      obtain ⟨d2, hd2⟩ := encodeFields_mono rest (encodeVal v segs).2
      have hagreeV : SegAgree segs.length (encodeVal v segs).2 files := by
        rw [hd2] at hagree
        exact segAgree_prefix hagree
      have hlo : segs.length ≤ (encodeVal v segs).2.length := by
        rw [hd1]
        simp
      have hagreeT : SegAgree (encodeVal v segs).2.length
          (encodeFields rest (encodeVal v segs).2).2 files :=
        segAgree_mono hagree hlo
      have h1 := decode_encode_val v segs files hc.1 hagreeV
      have h2 := decode_encode_fields rest (encodeVal v segs).2 files hc.2 hagreeT
      simp only [decodeFields, h1, h2]
end

/-- C4 counterexample: the round trip is not the identity on every
structured value.  The plain object `{type: "Buffer", data: [1]}` (not a
buffer) is written unchanged, but on read the shape-sniffing reviver
turns it into the 1-byte buffer `[1]`, which is a different value. -/
theorem c4_roundtrip_counterexample :
    decodeVal (encodeVal (.obj (.cons "type" (.str "Buffer")
          (.cons "data" (.arr (.cons (.num 1) .nil)) .nil))) []).1
        ((encodeVal (.obj (.cons "type" (.str "Buffer")
          (.cons "data" (.arr (.cons (.num 1) .nil)) .nil))) []).2)
      = some (.buf [1])
    ∧ (JVal.buf [1])
        ≠ .obj (.cons "type" (.str "Buffer")
            (.cons "data" (.arr (.cons (.num 1) .nil)) .nil)) := by
  constructor
  · rfl
  · intro h
    exact JVal.noConfusion h

/-- C4 (amended): for every value with unique object keys none of whose
object nodes carries a `type` property equal to `"Buffer"` or
`"ExternalBuffer"` (genuine buffers of any size included), writing and
then reading returns a value equal to the original, byte-exact for
buffers. -/
theorem c4_roundtrip_clean (v : JVal) (hc : cleanVal v = true) :
    decodeVal (encodeVal v []).1 (encodeVal v []).2 = some v :=
  decode_encode_val v [] (encodeVal v []).2 hc (fun _ _ _ => rfl)

theorem c4_witness :
    cleanVal (.arr (.cons (.num 3) (.cons (.str "hi")
        (.cons (.buf (List.replicate 1024 7)) (.cons (.buf [5, 6])
        (.cons (.obj (.cons "k" (.bool true) .nil)) .nil)))))) = true
    ∧ decodeVal (encodeVal (.arr (.cons (.num 3) (.cons (.str "hi")
        (.cons (.buf (List.replicate 1024 7)) (.cons (.buf [5, 6])
        (.cons (.obj (.cons "k" (.bool true) .nil)) .nil)))))) []).1
        ((encodeVal (.arr (.cons (.num 3) (.cons (.str "hi")
        (.cons (.buf (List.replicate 1024 7)) (.cons (.buf [5, 6])
        (.cons (.obj (.cons "k" (.bool true) .nil)) .nil)))))) []).2)
      = some (.arr (.cons (.num 3) (.cons (.str "hi")
        (.cons (.buf (List.replicate 1024 7)) (.cons (.buf [5, 6])
        (.cons (.obj (.cons "k" (.bool true) .nil)) .nil)))))) :=
  ⟨rfl,
   c4_roundtrip_clean (.arr (.cons (.num 3) (.cons (.str "hi")
      (.cons (.buf (List.replicate 1024 7)) (.cons (.buf [5, 6])
      (.cons (.obj (.cons "k" (.bool true) .nil)) .nil)))))) rfl⟩

/-! ### Shape-based buffer detection (C10) -/

theorem jlength_numList (l : List Int) : jlength (numList l) = l.length := by
  induction l with
  | nil => rfl
  | cons n ns ih => simp [numList, jlength, ih]

theorem jmapToByte_numList (l : List Int) :
    jmapToByte (numList l) = l.map (fun n => toByte (.num n)) := by
  induction l with
  | nil => rfl
  | cons n ns ih => simp [numList, jmapToByte, ih]

theorem decodeList_numList (l : List Int) (files : List Bytes) :
    decodeList (numList l) files = some (numList l) := by
  induction l with
  | nil => rfl
  | cons n ns ih => simp only [numList, decodeList, decodeVal, ih]

theorem encodeList_numList (l : List Int) (segs : List Bytes) :
    encodeList (numList l) segs = (numList l, segs) := by
  induction l with
  | nil => rfl
  | cons n ns ih => simp [numList, encodeList, encodeVal, ih]

/-- C10: buffer detection is by shape, not type.  A plain object
`{type: "Buffer", data: [...]}` with an array `data` is treated by write
exactly like a serialized buffer — extracted to a segment when
`data.length ≥ 1024`, left as is below — and read materializes it as a
byte buffer (each array element coerced as `Buffer.from` does), so the
written object comes back as a buffer, a different value than the
original object. -/
theorem c10_buffer_shape_duck_typing (l : List Int) :
    decodeVal (encodeVal (.obj (.cons "type" (.str "Buffer")
          (.cons "data" (.arr (numList l)) .nil))) []).1
        ((encodeVal (.obj (.cons "type" (.str "Buffer")
          (.cons "data" (.arr (numList l)) .nil))) []).2)
      = some (.buf (l.map (fun n => toByte (.num n))))
    ∧ (1024 ≤ l.length →
        encodeVal (.obj (.cons "type" (.str "Buffer")
            (.cons "data" (.arr (numList l)) .nil))) []
          = (extBufObj 0 (l.map (fun n => toByte (.num n))).length,
             [l.map (fun n => toByte (.num n))]))
    ∧ (l.length < 1024 →
        encodeVal (.obj (.cons "type" (.str "Buffer")
            (.cons "data" (.arr (numList l)) .nil))) []
          = (.obj (.cons "type" (.str "Buffer")
              (.cons "data" (.arr (numList l)) .nil)), []))
    ∧ (JVal.buf (l.map (fun n => toByte (.num n)))
        ≠ .obj (.cons "type" (.str "Buffer") (.cons "data" (.arr (numList l)) .nil))) := by
  have hbd : bigBufferData (.cons "type" (.str "Buffer")
        (.cons "data" (.arr (numList l)) .nil))
      = if (1024 : Int) ≤ (jlength (numList l) : Int)
        then some (.arr (numList l)) else none := rfl
  by_cases h : 1024 ≤ l.length
  · have hb : bigBufferData (.cons "type" (.str "Buffer")
          (.cons "data" (.arr (numList l)) .nil)) = some (.arr (numList l)) := by
      rw [hbd, jlength_numList, if_pos (by exact_mod_cast h)]
    have henc : encodeVal (.obj (.cons "type" (.str "Buffer")
          (.cons "data" (.arr (numList l)) .nil))) []
        = (extBufObj 0 (l.map (fun n => toByte (.num n))).length,
           [l.map (fun n => toByte (.num n))]) := by
      simp [encodeVal, hb, bufferFrom, jmapToByte_numList]
    refine ⟨?_, fun _ => henc, fun hcon => absurd hcon (not_lt.mpr h), ?_⟩
    · rw [henc, decodeVal_extBufObj]
      rw [if_neg (by omega : ¬ (((l.map (fun n => toByte (.num n))).length : Int) < 0)),
          if_neg (by omega : ¬ ((0 : Int) < 0))]
      simp
    · intro hfalse
      exact JVal.noConfusion hfalse
  · have hb : bigBufferData (.cons "type" (.str "Buffer")
          (.cons "data" (.arr (numList l)) .nil)) = none := by
      rw [hbd, jlength_numList, if_neg (by exact_mod_cast not_le.mpr (not_le.mp h))]
    have henc : encodeVal (.obj (.cons "type" (.str "Buffer")
          (.cons "data" (.arr (numList l)) .nil))) []
        = (.obj (.cons "type" (.str "Buffer")
            (.cons "data" (.arr (numList l)) .nil)), []) := by
      simp [encodeVal, hb, encodeFields, encodeList_numList]
    have hdf : decodeFields (.cons "type" (.str "Buffer")
          (.cons "data" (.arr (numList l)) .nil)) []
        = some (.cons "type" (.str "Buffer")
            (.cons "data" (.arr (numList l)) .nil)) := by
      simp only [decodeFields, decodeVal, decodeList_numList]
    have hds : decodeShaped (.cons "type" (.str "Buffer")
          (.cons "data" (.arr (numList l)) .nil)) []
        = some (.buf (jmapToByte (numList l))) := rfl
    refine ⟨?_, fun hcon => absurd h (absurd hcon (by omega)), fun _ => henc, ?_⟩
    · rw [henc]
      simp only [decodeVal, hdf]
      rw [hds, jmapToByte_numList]
    · intro hfalse
      exact JVal.noConfusion hfalse

theorem c10_witness :
    (1024 : Nat) ≤ (List.replicate 1024 (5 : Int)).length
    ∧ decodeVal (encodeVal (.obj (.cons "type" (.str "Buffer")
          (.cons "data" (.arr (numList (List.replicate 1024 (5 : Int)))) .nil))) []).1
        ((encodeVal (.obj (.cons "type" (.str "Buffer")
          (.cons "data" (.arr (numList (List.replicate 1024 (5 : Int)))) .nil))) []).2)
      = some (.buf ((List.replicate 1024 (5 : Int)).map (fun n => toByte (.num n))))
    ∧ encodeVal (.obj (.cons "type" (.str "Buffer")
          (.cons "data" (.arr (numList (List.replicate 1024 (5 : Int)))) .nil))) []
      = (extBufObj 0 ((List.replicate 1024 (5 : Int)).map (fun n => toByte (.num n))).length,
         [(List.replicate 1024 (5 : Int)).map (fun n => toByte (.num n))]) := by
  refine ⟨by simp, (c10_buffer_shape_duck_typing (List.replicate 1024 5)).1, ?_⟩
  exact (c10_buffer_shape_duck_typing (List.replicate 1024 5)).2.1 (by simp)
